import Mathlib

set_option maxRecDepth 100000

/-!
Verification of the certifiable-inference numeric core.

Shallow embedding of the Q16.16 fixed-point scalar module
(src/core/fixed_point.c), the deterministic matrix module
(src/core/matrix.c) and the deterministic linear-probing hash table
(src/containers/deterministic_hash.c), together with theorems settling
the specification claims about them.

Machine integers are modelled as Int with explicit two's-complement
wrapping where the C code narrows or can wrap: a cast to int32_t is
narrow32, arithmetic performed in the int64_t domain is threaded through
wrap64.  Byte strings are lists of byte values (Nat).
-/

/-- Two's-complement narrowing of an integer to the signed 32-bit range,
as performed by a C cast to int32_t (wraps modulo 2 to the 32). -/
def narrow32 (x : Int) : Int := (x + 2 ^ 31) % 2 ^ 32 - 2 ^ 31

/-- Two's-complement wrap into the signed 64-bit range: the value an
int64_t object holds.  For all in-range intermediate results this is the
identity, which the theorems below establish where it matters. -/
def wrap64 (x : Int) : Int := (x + 2 ^ 63) % 2 ^ 64 - 2 ^ 63

/-- Arithmetic right shift on a signed two's-complement integer:
floor division by a power of two. -/
def sar (x : Int) (n : Nat) : Int := Int.fdiv x (2 ^ n)

/-- The value x is representable in a signed 32-bit integer (fixed_t). -/
def isInt32 (x : Int) : Prop := -(2 ^ 31) ≤ x ∧ x < 2 ^ 31

instance (x : Int) : Decidable (isInt32 x) := by unfold isInt32; infer_instance

/-- Modelled from the spec: fixed_point.h is not under src/.  Spec section 6
gives the scalar encoding constants SHIFT = 16, HALF = 32768, ONE = 65536,
ZERO = 0; the .c sources use these names. -/
def FIXED_SHIFT : Nat := 16

/-- Modelled from the spec: half unit, 0.5 in Q16.16 (spec section 6). -/
def FIXED_HALF : Int := 32768

/-- Modelled from the spec: 1.0 in Q16.16 (spec section 6). -/
def FIXED_ONE : Int := 65536

/-- Modelled from the spec: the zero scalar (spec section 6). -/
def FIXED_ZERO : Int := 0

/-- Embedding of fixed_mul (src/core/fixed_point.c lines 24 to 41):
widen to int64, multiply, add the rounding half unit, arithmetic shift
right by 16, cast back to int32. -/
def fixed_mul (a b : Int) : Int :=
  narrow32 (sar (wrap64 (wrap64 (a * b) + FIXED_HALF)) FIXED_SHIFT)

/-- Embedding of fixed_div (src/core/fixed_point.c lines 43 to 64):
zero divisor returns the zero scalar; otherwise the dividend is widened
left by 16 bits in the int64 domain and divided by the raw divisor with
C truncating (toward zero) division, then cast back to int32. -/
def fixed_div (a b : Int) : Int :=
  if b = 0 then FIXED_ZERO
  else narrow32 (Int.tdiv (wrap64 (a * 2 ^ FIXED_SHIFT)) b)

/-- Modelled from the spec: fixed_add from the missing fixed_point.h.
Spec section 4.1: add is exact same-scale integer arithmetic; the stored
result is a 32-bit scalar. -/
def fixed_add (a b : Int) : Int := narrow32 (a + b)

/-- Modelled from the spec: fixed_sub from the missing fixed_point.h.
Spec section 4.1: sub is exact same-scale integer arithmetic. -/
def fixed_sub (a b : Int) : Int := narrow32 (a - b)

/-- Modelled from the spec: fixed_from_int from the missing fixed_point.h.
Construction scales by ONE; the tests use it only at small integers, where
conversion from float coincides with conversion from int. -/
def fixed_from_int (n : Int) : Int := narrow32 (n * FIXED_ONE)

/-- Modelled from the spec: fixed_to_int from the missing fixed_point.h.
Inspection shifts the integer part back down. -/
def fixed_to_int (x : Int) : Int := sar x FIXED_SHIFT

/-- Matrix view over a caller-supplied flat buffer (include/matrix.h):
row-major data, with 16-bit row and column counts.  The buffer is the
list of scalar slots; reads use getD with default 0, which is only
reached outside the adequately-sized region the preconditions assume. -/
structure fx_matrix_t where
  data : List Int
  rows : Nat
  cols : Nat
deriving DecidableEq

/-- The quantization tail shared by fx_matrix_mul and fx_vector_dot
(src/core/matrix.c): sum += FIXED_HALF in the int64 accumulator, then
arithmetic shift right by 16 and cast to fixed_t. -/
def quantize (s : Int) : Int := narrow32 (sar (wrap64 (s + FIXED_HALF)) FIXED_SHIFT)

/-- The inner accumulation of fx_matrix_mul (src/core/matrix.c lines 50
to 64): int64 sum over k of A[i,k] * B[k,j] in ascending k order, each
product and running sum held in the int64 domain. -/
def dotAcc (A B : fx_matrix_t) (i j : Nat) : Int :=
  (List.range A.cols).foldl
    (fun s k =>
      wrap64 (s + wrap64 (A.data.getD (i * A.cols + k) 0 * B.data.getD (k * B.cols + j) 0))) 0

/-- The exact (unbounded-integer) dot of row i of A with column j of B,
the reference value the spec formula names. -/
def exactDot (A B : fx_matrix_t) (i j : Nat) : Int :=
  Finset.sum (Finset.range A.cols)
    (fun k => A.data.getD (i * A.cols + k) 0 * B.data.getD (k * B.cols + j) 0)

/-- Embedding of fx_matrix_mul (src/core/matrix.c lines 35 to 72).  The
null-pointer guard returns with no write; all claims concern non-null
views, modelled by passing the structures directly.  The only dimension
check in the source is A.cols versus B.rows; on mismatch the output is
returned untouched.  Writes go to C.data at i * C.cols + j. -/
def fx_matrix_mul (A B C : fx_matrix_t) : fx_matrix_t :=
  if A.cols ≠ B.rows then C
  else
    { C with data :=
        (List.range A.rows).foldl (fun d i =>
          (List.range B.cols).foldl (fun d j =>
            d.set (i * C.cols + j) (quantize (dotAcc A B i j))) d) C.data }

/-- Embedding of fx_vector_dot (src/core/matrix.c lines 74 to 91): null
pointers give the zero scalar; otherwise an int64 accumulation over
ascending indices followed by the shared quantization. -/
def fx_vector_dot (a b : Option (List Int)) (len : Nat) : Int :=
  match a, b with
  | some va, some vb =>
      quantize ((List.range len).foldl
        (fun s i => wrap64 (s + wrap64 (va.getD i 0 * vb.getD i 0))) 0)
  | _, _ => FIXED_ZERO

/-- Embedding of fx_matrix_add (src/core/matrix.c lines 93 to 112).
Dimension mismatches return the output untouched.  The element count
total_elements is computed in a uint16_t, so rows * cols wraps modulo
65536 exactly as in the source. -/
def fx_matrix_add (A B C : fx_matrix_t) : fx_matrix_t :=
  if A.rows ≠ B.rows ∨ A.cols ≠ B.cols then C
  else if C.rows ≠ A.rows ∨ C.cols ≠ A.cols then C
  else
    { C with data :=
        (List.range (A.rows * A.cols % 65536)).foldl (fun d i =>
          d.set i (fixed_add (A.data.getD i 0) (B.data.getD i 0))) C.data }

/-- Status codes of the deterministic table (include/deterministic_hash.h). -/
inductive d_table_res_t where
  | D_TABLE_OK
  | D_TABLE_FULL
  | D_TABLE_KEY_EXISTS
  | D_TABLE_NOT_FOUND
  | D_TABLE_INVALID_PARAM
deriving DecidableEq

open d_table_res_t

/-- Entry of the table: the stored key bytes (at most 31, null stripped),
the 32-bit value, and the occupied flag.  The 32-byte C array is the key
list padded with zero bytes, which getD reproduces. -/
structure d_entry_t where
  key : List Nat
  value : Int
  occupied : Bool
deriving DecidableEq

/-- Table handle: entry array, capacity and count.  The hash function
pointer always holds jenkins_hash (set once by init, never changed), so
it is not carried as data. -/
structure d_table_t where
  entries : List d_entry_t
  capacity : Nat
  count : Nat
deriving DecidableEq

/-- A zeroed entry, the state every slot has after init. -/
def emptyEntry : d_entry_t := ⟨[], 0, false⟩

/-- Slot s of the table. -/
def entryAt (t : d_table_t) (s : Nat) : d_entry_t := t.entries.getD s emptyEntry

/-- Number of occupied slots. -/
def occCount (t : d_table_t) : Nat := t.entries.countP (fun e => e.occupied)

/-- Jenkins one-at-a-time hash (src/containers/deterministic_hash.c lines
37 to 48) over the key bytes, in uint32 arithmetic: each left shift and
add wraps modulo 2 to the 32, right shifts are truncating division. -/
def jenkins_hash (key : List Nat) : Nat :=
  let h := key.foldl (fun h c =>
    let h1 := (h + c) % 2 ^ 32
    let h2 := (h1 + h1 * 2 ^ 10) % 2 ^ 32
    h2 ^^^ h2 / 2 ^ 6) 0
  let h3 := (h + h * 2 ^ 3) % 2 ^ 32
  let h4 := h3 ^^^ h3 / 2 ^ 11
  (h4 + h4 * 2 ^ 15) % 2 ^ 32

/-- Valid C string key: every byte is nonzero (a null would terminate the
string earlier) and in the portable ASCII range, so that the char values
the C code reads agree on signed and unsigned char platforms. -/
def ValidKey (k : List Nat) : Prop := ∀ c ∈ k, 0 < c ∧ c < 128

instance (k : List Nat) : Decidable (ValidKey k) := by
  unfold ValidKey; infer_instance

/-- Embedding of strncmp(s, k, n) == 0 over byte lists: compare byte by
byte, stop early at a shared null, never read past n bytes.  Bytes past
the end of a list are the zero padding of the C buffers. -/
def d_strncmp : List Nat → List Nat → Nat → Bool
  | _, _, 0 => true
  | s, k, n + 1 =>
    let sb := s.getD 0 0
    let kb := k.getD 0 0
    if sb ≠ kb then false
    else if sb = 0 then true
    else d_strncmp s.tail k.tail n

/-- The key bytes strncpy(dest, key, 31) plus dest[31] = 0 leave stored:
the first 31 bytes of the key, null padding beyond. -/
def keyStore (k : List Nat) : List Nat := k.take 31

/-- The linear-probing loop of d_table_insert (deterministic_hash.c lines
83 to 95): walk occupied slots from the start index, report an existing
key, otherwise store at the first unoccupied slot.  The source loop has
no wrap guard and relies on a free slot existing; fuel counts remaining
probes and none marks exhaustion, proved unreachable from reachable
tables (fuel is the capacity and a free slot exists within capacity). -/
def insertLoop (t : d_table_t) (k : List Nat) (v : Int) : Nat → Nat → Option (d_table_res_t × d_table_t)
  | _, 0 => none
  | idx, fuel + 1 =>
    if (entryAt t idx).occupied then
      if d_strncmp (entryAt t idx).key k 32 then some (D_TABLE_KEY_EXISTS, t)
      else insertLoop t k v ((idx + 1) % t.capacity) fuel
    else
      some (D_TABLE_OK,
        { entries := t.entries.set idx ⟨keyStore k, v, true⟩,
          capacity := t.capacity, count := t.count + 1 })

/-- Embedding of d_table_insert (deterministic_hash.c lines 70 to 98):
null checks, the capacity check, then the probe from hash mod capacity. -/
def d_table_insert (table : Option d_table_t) (key : Option (List Nat)) (v : Int) :
    d_table_res_t × Option d_table_t :=
  match table, key with
  | none, _ => (D_TABLE_INVALID_PARAM, none)
  | some t, none => (D_TABLE_INVALID_PARAM, some t)
  | some t, some k =>
    if t.capacity ≤ t.count then (D_TABLE_FULL, some t)
    else
      match insertLoop t k v (jenkins_hash k % t.capacity) t.capacity with
      | some r => (r.1, some r.2)
      | none => (D_TABLE_FULL, some t)

/-- The probe loop of d_table_get (deterministic_hash.c lines 107 to 118):
walk occupied slots from the start index, return the value on a key
match, stop at an unoccupied slot or once the index wraps back to the
start.  The second component is the value written through out_value;
none means the loop returned without writing.  The wrap check bounds the
walk by capacity on its own; fuel only makes the recursion structural.
At fuel zero the wrap break and fuel exhaustion coincide in the not-found
answer without writing, and the fuel-stability theorem below shows any
fuel of at least the capacity gives the same result. -/
def getLoop (t : d_table_t) (k : List Nat) (start : Nat) : Nat → Nat → d_table_res_t × Option Int
  | 0, idx =>
    if (entryAt t idx).occupied then
      if d_strncmp (entryAt t idx).key k 32 then (D_TABLE_OK, some (entryAt t idx).value)
      else (D_TABLE_NOT_FOUND, none)
    else (D_TABLE_NOT_FOUND, none)
  | fuel + 1, idx =>
    if (entryAt t idx).occupied then
      if d_strncmp (entryAt t idx).key k 32 then (D_TABLE_OK, some (entryAt t idx).value)
      else
        if (idx + 1) % t.capacity = start then (D_TABLE_NOT_FOUND, none)
        else getLoop t k start fuel ((idx + 1) % t.capacity)
    else (D_TABLE_NOT_FOUND, none)

/-- Embedding of d_table_get (deterministic_hash.c lines 100 to 121).
The out_value pointer is modelled by outPresent (false is a null
pointer); a written value is returned as some.  The table is taken by
const pointer and never written. -/
def d_table_get (table : Option d_table_t) (key : Option (List Nat)) (outPresent : Bool) :
    d_table_res_t × Option Int :=
  match table, key with
  | none, _ => (D_TABLE_INVALID_PARAM, none)
  | some _, none => (D_TABLE_INVALID_PARAM, none)
  | some t, some k =>
    if outPresent = false then (D_TABLE_INVALID_PARAM, none)
    else getLoop t k (jenkins_hash k % t.capacity) t.capacity (jenkins_hash k % t.capacity)

/-- Size in bytes of a d_entry_t slot: 32 key bytes, a 4-byte value, the
occupied flag and alignment padding, as laid out by the C compiler; the
claims depend only on capacity being buffer_size divided by this. -/
def d_entry_size : Nat := 40

/-- Embedding of d_table_init (deterministic_hash.c lines 50 to 68):
null checks, capacity from the buffer size, rejection of a zero-slot
pool, then a fully zeroed entry array. -/
def d_table_init (tablePresent bufferPresent : Bool) (buffer_size : Nat) :
    d_table_res_t × Option d_table_t :=
  if tablePresent = false ∨ bufferPresent = false then (D_TABLE_INVALID_PARAM, none)
  else
    if buffer_size / d_entry_size = 0 then (D_TABLE_INVALID_PARAM, none)
    else (D_TABLE_OK,
      some ⟨List.replicate (buffer_size / d_entry_size) emptyEntry, buffer_size / d_entry_size, 0⟩)

/-- Embedding of d_table_iterate (deterministic_hash.c lines 123 to 136):
the callback is invoked on each occupied entry in ascending slot order;
the table is read through a const pointer and never modified.  Modelled
as the list of visited key-value pairs. -/
def d_table_iterate (t : d_table_t) : List (List Nat × Int) :=
  (t.entries.filter (fun e => e.occupied)).map (fun e => (e.key, e.value))

/-- Tables reachable from a successful d_table_init through the public
operations, together with the list of keys successfully inserted.
d_table_get and d_table_iterate take the table by const pointer and are
modelled as pure; an unsuccessful insert returns the table unchanged
(insert_fail_unchanged below), so sequences of arbitrary calls stay
inside this relation. -/
inductive Reach : d_table_t → List (List Nat) → Prop where
  | init (tablePresent bufferPresent : Bool) (buffer_size : Nat) (t : d_table_t) :
      d_table_init tablePresent bufferPresent buffer_size = (D_TABLE_OK, some t) →
      Reach t []
  | insert (t : d_table_t) (ks : List (List Nat)) (k : List Nat) (v : Int) (t' : d_table_t) :
      Reach t ks → ValidKey k →
      d_table_insert (some t) (some k) v = (D_TABLE_OK, some t') →
      Reach t' (k :: ks)

/-- The 2 by 2 integer matrix [[1,2],[3,4]] in Q16.16 encoding. -/
def mulExA : fx_matrix_t := ⟨[65536, 131072, 196608, 262144], 2, 2⟩

/-- The 2 by 2 integer matrix [[5,6],[7,8]] in Q16.16 encoding. -/
def mulExB : fx_matrix_t := ⟨[327680, 393216, 458752, 524288], 2, 2⟩

/-- A zero-initialized 2 by 2 output matrix, as fx_matrix_init leaves it. -/
def mulExC : fx_matrix_t := ⟨[0, 0, 0, 0], 2, 2⟩

/-- A 1 by 1 matrix holding 2.0. -/
def cexA : fx_matrix_t := ⟨[131072], 1, 1⟩

/-- A 1 by 1 matrix holding 3.0. -/
def cexB : fx_matrix_t := ⟨[196608], 1, 1⟩

/-- A sentinel-filled 2 by 2 output whose dimensions disagree with the
1 by 1 product above (999.0 in every slot, buffer adequately sized). -/
def cexC : fx_matrix_t := ⟨[65470464, 65470464, 65470464, 65470464], 2, 2⟩

/-- A 2 by 3 zero matrix for the incompatible-shape example. -/
def mmA : fx_matrix_t := ⟨[0, 0, 0, 0, 0, 0], 2, 3⟩

/-- A second 2 by 3 zero matrix: incompatible with mmA for multiply. -/
def mmB : fx_matrix_t := ⟨[0, 0, 0, 0, 0, 0], 2, 3⟩

/-- A sentinel-filled 2 by 2 output buffer (999.0 in every slot). -/
def mmC : fx_matrix_t := ⟨[65470464, 65470464, 65470464, 65470464], 2, 2⟩

/-- A 256 by 256 matrix of ones (Q16.16), adequately backed. -/
def addA256 : fx_matrix_t := ⟨List.replicate 65536 65536, 256, 256⟩

/-- A second 256 by 256 matrix of ones. -/
def addB256 : fx_matrix_t := ⟨List.replicate 65536 65536, 256, 256⟩

/-- A 256 by 256 output buffer filled with the raw sentinel 999. -/
def addC256 : fx_matrix_t := ⟨List.replicate 65536 999, 256, 256⟩

/-- A key of 32 identical bytes: one byte longer than the stored field. -/
def key32 : List Nat := List.replicate 32 65

/-- The two-slot table a successful init over an 80-byte pool yields. -/
def tbl0 : d_table_t := ⟨List.replicate 2 emptyEntry, 2, 0⟩

/-- tbl0 after inserting key32 once: the hash of key32 is even, so its
31-byte truncation sits in slot 0. -/
def tbl1 : d_table_t := ⟨[⟨List.replicate 31 65, 1, true⟩, emptyEntry], 2, 1⟩

/-- A one-slot table at capacity. -/
def tblFull : d_table_t := ⟨[⟨[65], 1, true⟩], 1, 1⟩

/-- tbl0 after inserting the three-byte key "key" (bytes 107, 101, 121),
whose hash is odd, so it sits in slot 1. -/
def tbl2 : d_table_t := ⟨[emptyEntry, ⟨[107, 101, 121], 7, true⟩], 2, 1⟩

/-- The probe chain the insert loop relies on: the truncation of k is
stored at some slot s, and every slot from the hash home of k up to s
(linearly, wrapping) is occupied.  Each successful insert of k
establishes this, and occupancy only ever grows. -/
def StoredChain (t : d_table_t) (k : List Nat) : Prop :=
  ∃ s, s < t.capacity ∧ (entryAt t s).occupied = true ∧
    (entryAt t s).key = keyStore k ∧
    ∀ j, j < (s + t.capacity - jenkins_hash k % t.capacity) % t.capacity →
      (entryAt t ((jenkins_hash k % t.capacity + j) % t.capacity)).occupied = true

/-- Invariant of every reachable table: the entry array spans exactly the
capacity, the capacity is positive, the count equals the number of
occupied slots, every stored key is a valid string of at most 31 bytes,
and every successfully inserted key has its probe chain intact. -/
def TableInv (t : d_table_t) (ks : List (List Nat)) : Prop :=
  t.entries.length = t.capacity ∧
  0 < t.capacity ∧
  t.count = occCount t ∧
  (∀ s, s < t.capacity → (entryAt t s).occupied = true →
    ValidKey (entryAt t s).key ∧ (entryAt t s).key.length ≤ 31) ∧
  (∀ k, k ∈ ks → StoredChain t k)

/-- narrow32 is the identity exactly on int32-representable values. -/
theorem narrow32_eq_self {x : Int} (h : isInt32 x) : narrow32 x = x := by
  obtain ⟨h1, h2⟩ := h
  unfold narrow32
  omega

/-- wrap64 is the identity on int64-representable values. -/
theorem wrap64_eq_self {x : Int} (h1 : -(2 ^ 63) ≤ x) (h2 : x < 2 ^ 63) :
    wrap64 x = x := by
  unfold wrap64
  omega

/-- wrap64 preserves the residue modulo 2 to the 64. -/
theorem wrap64_emod (x : Int) : wrap64 x % 2 ^ 64 = x % 2 ^ 64 := by
  unfold wrap64
  omega

/-- Absolute bound on a product of two int32 values. -/
theorem int32_mul_bound {a b : Int} (ha : isInt32 a) (hb : isInt32 b) :
    -(2 ^ 62) ≤ a * b ∧ a * b ≤ 2 ^ 62 := by
  obtain ⟨ha1, ha2⟩ := ha
  obtain ⟨hb1, hb2⟩ := hb
  have habs : |a * b| ≤ 2 ^ 62 := by
    rw [abs_mul]
    calc |a| * |b| ≤ 2 ^ 31 * 2 ^ 31 := by
          apply mul_le_mul (abs_le.mpr ⟨by omega, by omega⟩)
            (abs_le.mpr ⟨by omega, by omega⟩) (abs_nonneg b) (by norm_num)
      _ = 2 ^ 62 := by norm_num
  exact ⟨(abs_le.mp habs).1, (abs_le.mp habs).2⟩

/-- Quantization of an in-range int64 accumulator equals exact arithmetic:
combining the wrap-free bounds for the product and the half-unit add. -/
theorem mul_quant_exact {a b : Int} (ha : isInt32 a) (hb : isInt32 b) :
    wrap64 (wrap64 (a * b) + FIXED_HALF) = a * b + FIXED_HALF := by
  obtain ⟨h1, h2⟩ := int32_mul_bound ha hb
  have hin : wrap64 (a * b) = a * b := wrap64_eq_self (by omega) (by omega)
  rw [hin, wrap64_eq_self (by unfold FIXED_HALF; omega) (by unfold FIXED_HALF; omega)]

/-- C6: for all 32-bit scalars, fixed_mul computes the 32-bit narrowing of
the exact 64-bit expression (a * b + 32768) shifted arithmetically right
by 16 - no intermediate wrap occurs in the int64 domain; and multiplying
the encoding of 180.0 by itself gives exactly the encoding of 32400.0,
where a 32-bit intermediate product would have overflowed. -/
theorem fixed_mul_spec :
    (∀ a b : Int, isInt32 a → isInt32 b →
      fixed_mul a b = narrow32 (sar (a * b + FIXED_HALF) FIXED_SHIFT)) ∧
    fixed_mul (fixed_from_int 180) (fixed_from_int 180) = fixed_from_int 32400 := by
  constructor
  · intro a b ha hb
    unfold fixed_mul
    rw [mul_quant_exact ha hb]
  · decide

/-- Witness for C6: the general statement applied at concrete scalars. -/
theorem fixed_mul_spec_witness :
    isInt32 131072 ∧ isInt32 196608 ∧
    fixed_mul 131072 196608 = narrow32 (sar (131072 * 196608 + FIXED_HALF) FIXED_SHIFT) :=
  ⟨by decide, by decide, fixed_mul_spec.1 131072 196608 (by decide) (by decide)⟩

/-- C4: division by the zero scalar returns the zero scalar, and for a
nonzero divisor fixed_div is the 32-bit narrowing of the truncating
(toward zero) 64-bit division of the dividend widened left by 16 bits -
with no half-unit rounding term. -/
theorem fixed_div_spec : ∀ a b : Int, isInt32 a → isInt32 b →
    fixed_div a 0 = FIXED_ZERO ∧
    (b ≠ 0 → fixed_div a b = narrow32 (Int.tdiv (a * 2 ^ FIXED_SHIFT) b)) := by
  intro a b ha _
  constructor
  · unfold fixed_div
    simp
  · intro hb
    unfold fixed_div
    rw [if_neg hb]
    obtain ⟨h1, h2⟩ := ha
    unfold FIXED_SHIFT
    rw [wrap64_eq_self (by omega) (by omega)]

/-- Witness for C4: division by zero and a concrete nonzero division
(5.0 divided by 2.0 in Q16.16), via the main theorem. -/
theorem fixed_div_spec_witness :
    fixed_div 327680 0 = FIXED_ZERO ∧
    fixed_div 327680 131072 = narrow32 (Int.tdiv (327680 * 2 ^ FIXED_SHIFT) 131072) :=
  ⟨(fixed_div_spec 327680 131072 (by decide) (by decide)).1,
   (fixed_div_spec 327680 131072 (by decide) (by decide)).2 (by decide)⟩

/-- C8: algebraic identities of the scalar module on representable values:
commutativity of fixed_mul, the multiplicative identities at ONE and ZERO,
and exactness of same-scale add and sub at ZERO and on equal operands. -/
theorem fixed_algebra : ∀ a b : Int, isInt32 a → isInt32 b →
    fixed_mul a b = fixed_mul b a ∧
    fixed_mul a FIXED_ONE = a ∧
    fixed_mul a FIXED_ZERO = FIXED_ZERO ∧
    fixed_add a FIXED_ZERO = a ∧
    fixed_sub a a = FIXED_ZERO := by
  intro a b ha _
  obtain ⟨h1, h2⟩ := ha
  refine ⟨by unfold fixed_mul; rw [mul_comm], ?_, ?_, ?_, ?_⟩
  · show narrow32 (sar (wrap64 (wrap64 (a * FIXED_ONE) + FIXED_HALF)) FIXED_SHIFT) = a
    unfold FIXED_ONE FIXED_HALF FIXED_SHIFT
    have hin : wrap64 (a * 65536) = a * 65536 := wrap64_eq_self (by omega) (by omega)
    rw [hin, wrap64_eq_self (by omega) (by omega)]
    unfold sar
    rw [Int.fdiv_eq_ediv _ (by norm_num)]
    unfold narrow32
    omega
  · show narrow32 (sar (wrap64 (wrap64 (a * FIXED_ZERO) + FIXED_HALF)) FIXED_SHIFT) = FIXED_ZERO
    rw [show a * FIXED_ZERO = 0 from mul_eq_zero_of_right a rfl]
    decide
  · show narrow32 (a + FIXED_ZERO) = a
    unfold narrow32 FIXED_ZERO
    omega
  · show narrow32 (a - a) = FIXED_ZERO
    rw [sub_self]
    decide

/-- Witness for C8: the identities at concrete representable scalars. -/
theorem fixed_algebra_witness :
    fixed_mul 131072 196608 = fixed_mul 196608 131072 ∧
    fixed_mul 131072 FIXED_ONE = 131072 ∧
    fixed_mul 131072 FIXED_ZERO = FIXED_ZERO ∧
    fixed_add 131072 FIXED_ZERO = 131072 ∧
    fixed_sub 131072 131072 = FIXED_ZERO :=
  fixed_algebra 131072 196608 (by decide) (by decide)

/-- Wrapping the accumulator commutes with quantization: two sums equal
modulo 2 to the 64 quantize to the same scalar. -/
theorem quantize_congr {s t : Int} (h : s % 2 ^ 64 = t % 2 ^ 64) :
    quantize s = quantize t := by
  unfold quantize
  have hw : wrap64 (s + FIXED_HALF) = wrap64 (t + FIXED_HALF) := by
    unfold wrap64; omega
  rw [hw]

/-- The int64 wrap before the shift never changes the narrowed result:
quantization of any accumulator value equals the exact formula of the
spec, because 2 to the 64 shifted right by 16 is a multiple of 2 to the
32. -/
theorem quantize_eq_exact (s : Int) :
    quantize s = narrow32 (sar (s + FIXED_HALF) FIXED_SHIFT) := by
  unfold quantize narrow32 sar wrap64 FIXED_SHIFT
  rw [Int.fdiv_eq_ediv _ (by norm_num), Int.fdiv_eq_ediv _ (by norm_num)]
  omega

/-- The wrapped int64 accumulation of the matrix loops agrees with exact
integer accumulation modulo 2 to the 64, whatever the starting values. -/
theorem wrapFold_emod (g : Nat → Int) (l : List Nat) :
    ∀ s t : Int, s % 2 ^ 64 = t % 2 ^ 64 →
      (l.foldl (fun acc k => wrap64 (acc + wrap64 (g k))) s) % 2 ^ 64 =
      (l.foldl (fun acc k => acc + g k) t) % 2 ^ 64 := by
  induction l with
  | nil => intro s t h; simpa using h
  | cons a l ih =>
    intro s t h
    simp only [List.foldl_cons]
    apply ih
    have h1 := wrap64_emod (s + wrap64 (g a))
    have h2 := wrap64_emod (g a)
    omega

/-- Left fold of exact additions over an index range is the finite sum. -/
theorem foldl_add_eq_sum (g : Nat → Int) (n : Nat) :
    (List.range n).foldl (fun acc k => acc + g k) 0 = Finset.sum (Finset.range n) g := by
  induction n with
  | zero => simp
  | succ m ih =>
    rw [List.range_succ, List.foldl_append, Finset.sum_range_succ, ih]
    simp

/-- Each output cell of the multiply loop equals the exact quantized dot
of the corresponding row and column. -/
theorem dotAcc_cell (A B : fx_matrix_t) (i j : Nat) :
    quantize (dotAcc A B i j) =
      narrow32 (sar (exactDot A B i j + FIXED_HALF) FIXED_SHIFT) := by
  have h1 : quantize (dotAcc A B i j) = quantize (exactDot A B i j) := by
    apply quantize_congr
    unfold dotAcc exactDot
    rw [← foldl_add_eq_sum]
    exact wrapFold_emod _ _ 0 0 rfl
  rw [h1, quantize_eq_exact]

/-- Reading another position after a set is unchanged. -/
theorem getD_set_ne {α : Type} (l : List α) (i p : Nat) (x dflt : α) (h : i ≠ p) :
    (l.set i x).getD p dflt = l.getD p dflt := by
  simp [List.getD_eq_getElem?_getD, List.getElem?_set_ne h]

/-- Reading a position just set inside the buffer returns the new value. -/
theorem getD_set_self {α : Type} (l : List α) (i : Nat) (x dflt : α) (h : i < l.length) :
    (l.set i x).getD i dflt = x := by
  simp [List.getD_eq_getElem?_getD, List.getElem?_set_self h]

/-- A fold of in-place writes preserves the buffer length. -/
theorem foldl_set_length (f : Nat → Int) (pos : Nat → Nat) (l : List Nat) :
    ∀ d : List Int, (l.foldl (fun d j => d.set (pos j) (f j)) d).length = d.length := by
  induction l with
  | nil => intro d; rfl
  | cons a l ih =>
    intro d
    simp only [List.foldl_cons]
    rw [ih, List.length_set]

/-- After the inner column loop, the cell written at offset base + j
holds its value: later writes of the same row go to distinct offsets. -/
theorem innerFold_getD_hit (f : Nat → Int) (base : Nat) :
    ∀ (m j : Nat), j < m → ∀ d : List Int, base + j < d.length →
      ((List.range m).foldl (fun d j => d.set (base + j) (f j)) d).getD (base + j) 0 = f j := by
  intro m
  induction m with
  | zero => intro j hj; omega
  | succ m ih =>
    intro j hj d hd
    rw [List.range_succ, List.foldl_append]
    simp only [List.foldl_cons, List.foldl_nil]
    by_cases hjm : j = m
    · subst hjm
      apply getD_set_self
      rw [foldl_set_length]
      exact hd
    · rw [getD_set_ne _ _ _ _ _ (by omega)]
      exact ih j (by omega) d hd

/-- The inner column loop leaves every offset outside its write range
unchanged. -/
theorem innerFold_getD_miss (f : Nat → Int) (base : Nat) :
    ∀ (m p : Nat), (∀ j, j < m → p ≠ base + j) → ∀ d : List Int,
      ((List.range m).foldl (fun d j => d.set (base + j) (f j)) d).getD p 0 = d.getD p 0 := by
  intro m
  induction m with
  | zero => intro p hp d; rfl
  | succ m ih =>
    intro p hp d
    rw [List.range_succ, List.foldl_append]
    simp only [List.foldl_cons, List.foldl_nil]
    rw [getD_set_ne _ _ _ _ _ (by intro he; exact hp m (by omega) he.symm)]
    exact ih p (fun j hj => hp j (by omega)) d

/-- The nested row and column loops preserve the buffer length. -/
theorem outerFold_length (g : Nat → Nat → Int) (ccols cols2 : Nat) :
    ∀ (rows : Nat) (d : List Int),
      ((List.range rows).foldl (fun d i => (List.range cols2).foldl
        (fun d j => d.set (i * ccols + j) (g i j)) d) d).length = d.length := by
  intro rows
  induction rows with
  | zero => intro d; rfl
  | succ r ih =>
    intro d
    rw [List.range_succ, List.foldl_append]
    simp only [List.foldl_cons, List.foldl_nil]
    rw [foldl_set_length, ih]

/-- After the full row and column loops, cell (i, j) of the output holds
g i j: rows write to pairwise disjoint offset ranges when the column
count does not exceed the row stride. -/
theorem outerFold_getD_hit (g : Nat → Nat → Int) (ccols cols2 : Nat) (hcc : cols2 ≤ ccols) :
    ∀ (rows i j : Nat), i < rows → j < cols2 → ∀ d : List Int, i * ccols + j < d.length →
      ((List.range rows).foldl (fun d i => (List.range cols2).foldl
        (fun d j => d.set (i * ccols + j) (g i j)) d) d).getD (i * ccols + j) 0 = g i j := by
  intro rows
  induction rows with
  | zero => intro i j hi; omega
  | succ r ih =>
    intro i j hi hj d hd
    rw [List.range_succ, List.foldl_append]
    simp only [List.foldl_cons, List.foldl_nil]
    by_cases hir : i = r
    · subst hir
      apply innerFold_getD_hit (fun j => g i j) (i * ccols) cols2 j hj
      rw [outerFold_length]
      exact hd
    · rw [innerFold_getD_miss (fun j => g r j) (r * ccols) cols2 (i * ccols + j) ?_]
      · exact ih i j (by omega) hj d hd
      · intro j2 hj2
        have h1 : (i + 1) * ccols ≤ r * ccols := mul_le_mul_right' (by omega) ccols
        have h2 : i * ccols + ccols = (i + 1) * ccols := by ring
        omega

/-- C3: with compatible dimensions and adequately sized output, every
cell (i, j) of the product is the 32-bit narrowing of the exact 64-bit
row-column accumulation plus the half unit, shifted right by 16; and the
integer example [[1,2],[3,4]] times [[5,6],[7,8]] yields exactly the
fixed-point encoding of [[19,22],[43,50]]. -/
theorem fx_matrix_mul_cells :
    (∀ A B C : fx_matrix_t, A.cols = B.rows → C.rows = A.rows → C.cols = B.cols →
      C.rows * C.cols ≤ C.data.length →
      ∀ i j, i < A.rows → j < B.cols →
        (fx_matrix_mul A B C).data.getD (i * C.cols + j) 0 =
          narrow32 (sar (exactDot A B i j + FIXED_HALF) FIXED_SHIFT)) ∧
    fx_matrix_mul mulExA mulExB mulExC = ⟨[1245184, 1441792, 2818048, 3276800], 2, 2⟩ := by
  constructor
  · intro A B C hAB hCA hCB hlen i j hi hj
    have hdata : (fx_matrix_mul A B C).data =
        (List.range A.rows).foldl (fun d i =>
          (List.range B.cols).foldl (fun d j =>
            d.set (i * C.cols + j) (quantize (dotAcc A B i j))) d) C.data := by
      unfold fx_matrix_mul
      rw [if_neg (by omega)]
    rw [hdata]
    have hlen2 : i * C.cols + j < C.data.length := by
      have h1 : (i + 1) * C.cols ≤ C.rows * C.cols :=
        mul_le_mul_right' (by omega) C.cols
      have h2 : i * C.cols + C.cols = (i + 1) * C.cols := by ring
      omega
    rw [outerFold_getD_hit (fun i j => quantize (dotAcc A B i j)) C.cols B.cols
      (le_of_eq hCB.symm) A.rows i j hi hj C.data hlen2]
    exact dotAcc_cell A B i j
  · decide

/-- Witness for C3: the general cell formula applied to the concrete
2 by 2 example at cell (0, 0). -/
theorem fx_matrix_mul_cells_witness :
    (fx_matrix_mul mulExA mulExB mulExC).data.getD (0 * mulExC.cols + 0) 0 =
      narrow32 (sar (exactDot mulExA mulExB 0 0 + FIXED_HALF) FIXED_SHIFT) :=
  fx_matrix_mul_cells.1 mulExA mulExB mulExC rfl rfl rfl (by decide) 0 0
    (by decide) (by decide)

/-- Counterexample to C1: the source checks only A.cols against B.rows.
Here that check passes while both output-dimension preconditions fail
(C is 2 by 2 against a 1 by 1 product, buffer adequately sized), yet the
call writes into the sentinel-filled output buffer. -/
theorem fx_matrix_mul_dim_cex :
    cexA.cols = cexB.rows ∧ cexC.rows ≠ cexA.rows ∧ cexC.cols ≠ cexB.cols ∧
    cexC.rows * cexC.cols ≤ cexC.data.length ∧
    fx_matrix_mul cexA cexB cexC ≠ cexC := by decide

/-- C1 amended: the multiply returns without modifying any element of the
output exactly on the one mismatch the source checks, A.cols distinct
from B.rows; output-dimension mismatches are unchecked preconditions. -/
theorem fx_matrix_mul_incompat_noop :
    ∀ A B C : fx_matrix_t, A.cols ≠ B.rows → fx_matrix_mul A B C = C := by
  intro A B C h
  unfold fx_matrix_mul
  rw [if_pos h]

/-- Witness for amended C1: the shape example of the spec, two 2 by 3
operands, leaves the sentinel-filled output buffer untouched. -/
theorem fx_matrix_mul_incompat_noop_witness :
    mmA.cols ≠ mmB.rows ∧ fx_matrix_mul mmA mmB mmC = mmC :=
  ⟨by decide, fx_matrix_mul_incompat_noop mmA mmB mmC (by decide)⟩

/-- C2 failing input: two 256 by 256 matrices of ones with matching
output.  The uint16_t element count wraps to zero, so the addition loop
writes nothing: the sentinel output is returned unchanged even though
the claim requires cell 0 to become the sum of the input cells. -/
theorem fx_matrix_add_wrap_bug :
    fx_matrix_add addA256 addB256 addC256 = addC256 ∧
    addC256.data.getD 0 0 ≠
      fixed_add (addA256.data.getD 0 0) (addB256.data.getD 0 0) := by
  constructor
  · rfl
  · decide

/-- C5: the dot product of adequately long vectors is the 32-bit
narrowing of the exact 64-bit ascending-order accumulation plus the half
unit, shifted right by 16 - the same quantization as fixed_mul; a null
operand yields the zero scalar; and the encoded [1,2,3] dot [4,5,6]
converts back to the integer 32. -/
theorem fx_vector_dot_spec :
    (∀ (va vb : List Int) (len : Nat), len ≤ va.length → len ≤ vb.length →
      fx_vector_dot (some va) (some vb) len =
        narrow32 (sar (Finset.sum (Finset.range len)
          (fun i => va.getD i 0 * vb.getD i 0) + FIXED_HALF) FIXED_SHIFT)) ∧
    (∀ (b : Option (List Int)) (len : Nat), fx_vector_dot none b len = FIXED_ZERO) ∧
    (∀ (a : Option (List Int)) (len : Nat), fx_vector_dot a none len = FIXED_ZERO) ∧
    fixed_to_int (fx_vector_dot (some [65536, 131072, 196608])
      (some [262144, 327680, 393216]) 3) = 32 := by
  refine ⟨?_, ?_, ?_, by decide⟩
  · intro va vb len _ _
    show quantize _ = _
    have hc : quantize ((List.range len).foldl
          (fun s i => wrap64 (s + wrap64 (va.getD i 0 * vb.getD i 0))) 0) =
        quantize (Finset.sum (Finset.range len) (fun i => va.getD i 0 * vb.getD i 0)) := by
      apply quantize_congr
      rw [← foldl_add_eq_sum]
      exact wrapFold_emod _ _ 0 0 rfl
    rw [hc, quantize_eq_exact]
  · intro b len
    cases b <;> rfl
  · intro a len
    cases a <;> rfl

/-- Witness for C5: the general formula applied at concrete vectors. -/
theorem fx_vector_dot_spec_witness :
    fx_vector_dot (some [65536, 131072]) (some [131072, 196608]) 2 =
      narrow32 (sar (Finset.sum (Finset.range 2)
        (fun i => ([65536, 131072] : List Int).getD i 0 *
          ([131072, 196608] : List Int).getD i 0) + FIXED_HALF) FIXED_SHIFT) :=
  fx_vector_dot_spec.1 [65536, 131072] [131072, 196608] 2 (by decide) (by decide)

/-- strncmp of a buffer against itself always reports equality. -/
theorem d_strncmp_self : ∀ (n : Nat) (s : List Nat), d_strncmp s s n = true := by
  intro n
  induction n with
  | zero => intro s; rfl
  | succ n ih =>
    intro s
    by_cases h0 : s.getD 0 0 = 0
    · have h0b : s[0]?.getD 0 = 0 := by rw [← List.getD_eq_getElem?_getD]; exact h0
      simp [d_strncmp, h0b]
    · simp [d_strncmp, h0, ih]

/-- For valid (null-free) strings with the stored one shorter than the
bound, strncmp reports equality exactly on equal strings. -/
theorem d_strncmp_eq_iff : ∀ (n : Nat) (s k : List Nat), ValidKey s → ValidKey k →
    s.length < n → (d_strncmp s k n = true ↔ s = k) := by
  intro n
  induction n with
  | zero => intro s k _ _ h; omega
  | succ n ih =>
    intro s k hs hk hlen
    cases s with
    | nil =>
      cases k with
      | nil => simp [d_strncmp]
      | cons b k2 =>
        have hb := (hk b (List.mem_cons_self b k2)).1
        simp [d_strncmp, hb.ne]
    | cons a s2 =>
      have ha := (hs a (List.mem_cons_self a s2)).1
      cases k with
      | nil =>
        simp [d_strncmp, ha.ne']
      | cons b k2 =>
        by_cases hab : a = b
        · subst hab
          have hih := ih s2 k2 (fun c hc => hs c (List.mem_cons_of_mem a hc))
            (fun c hc => hk c (List.mem_cons_of_mem a hc)) (by simpa using Nat.lt_of_succ_lt_succ hlen)
          simp [d_strncmp, ha.ne', hih]
        · simp [d_strncmp, hab]

/-- Advancing the probe index commutes with the offset form. -/
theorem probe_shift (cap idx j : Nat) :
    ((idx + 1) % cap + j) % cap = (idx + (j + 1)) % cap := by
  rw [Nat.mod_add_mod]
  congr 1
  omega

/-- Every slot is hit by some probe offset below the capacity. -/
theorem exists_probe_offset (cap idx s : Nat) (hc : 0 < cap) (hi : idx < cap) (hs : s < cap) :
    ∃ j, j < cap ∧ (idx + j) % cap = s := by
  refine ⟨(s + cap - idx) % cap, Nat.mod_lt _ hc, ?_⟩
  rw [Nat.add_mod_mod]
  have h2 : idx + (s + cap - idx) = s + cap := by omega
  rw [h2, Nat.add_mod_right, Nat.mod_eq_of_lt hs]

/-- The cyclic distance from the probe home back to a reached slot. -/
theorem probe_dist (cap idx d : Nat) (hi : idx < cap) (hd : d < cap) :
    ((idx + d) % cap + cap - idx) % cap = d := by
  by_cases hlt : idx + d < cap
  · rw [Nat.mod_eq_of_lt hlt]
    have h2 : idx + d + cap - idx = d + cap := by omega
    rw [h2, Nat.add_mod_right, Nat.mod_eq_of_lt hd]
  · have hin : (idx + d) % cap = idx + d - cap := by
      rw [Nat.mod_eq_sub_mod (by omega), Nat.mod_eq_of_lt (by omega)]
    rw [hin]
    have h2 : idx + d - cap + cap - idx = d := by omega
    rw [h2, Nat.mod_eq_of_lt hd]

/-- A nonzero offset below the capacity never wraps back to the start. -/
theorem wrap_miss (cap start a : Nat) (hs : start < cap) (ha0 : 0 < a) (ha : a < cap) :
    (start + a) % cap ≠ start := by
  intro he
  by_cases hlt : start + a < cap
  · rw [Nat.mod_eq_of_lt hlt] at he; omega
  · rw [Nat.mod_eq_sub_mod (by omega), Nat.mod_eq_of_lt (by omega)] at he; omega

/-- Setting an unoccupied slot to an occupied entry raises the occupied
count by exactly one. -/
theorem occCount_set_unocc (t : d_table_t) (p : Nat) (e : d_entry_t)
    (hp : p < t.entries.length) (hocc : ¬(entryAt t p).occupied = true)
    (he : e.occupied = true) :
    (t.entries.set p e).countP (fun e => e.occupied) = occCount t + 1 := by
  rw [List.countP_set _ _ _ _ hp]
  have hg : entryAt t p = t.entries[p] := by
    unfold entryAt
    rw [List.getD_eq_getElem?_getD, List.getElem?_eq_getElem hp]
    rfl
  rw [hg] at hocc
  have hfalse : t.entries[p].occupied = false := by simpa using hocc
  simp [occCount, hfalse, he]

/-- A reachable table with spare room has an unoccupied slot. -/
theorem exists_free_slot (t : d_table_t) (hlen : t.entries.length = t.capacity)
    (hcnt : t.count = occCount t) (hlt : t.count < t.capacity) :
    ∃ s, s < t.capacity ∧ ¬(entryAt t s).occupied = true := by
  by_contra hno
  push_neg at hno
  have hfull : occCount t = t.entries.length := by
    apply List.countP_eq_length.mpr
    intro e he
    obtain ⟨i, hi, hie⟩ := List.getElem_of_mem he
    have hg : entryAt t i = e := by
      unfold entryAt
      rw [List.getD_eq_getElem?_getD, List.getElem?_eq_getElem hi]
      simpa using hie
    have := hno i (by omega)
    rw [hg] at this
    simpa using this
  omega

/-- Complete case analysis of the insert probe: when some probe offset
within the fuel is unoccupied, the loop terminates, either reporting an
existing key with the table unchanged, or storing the new entry at the
first unoccupied slot of the probe sequence. -/
theorem insertLoop_cases (t : d_table_t) (k : List Nat) (v : Int) :
    ∀ (fuel idx : Nat), idx < t.capacity →
      (∃ j, j < fuel ∧ ¬(entryAt t ((idx + j) % t.capacity)).occupied = true) →
      ∃ res, insertLoop t k v idx fuel = some res ∧
        (res = (D_TABLE_KEY_EXISTS, t) ∨
          ∃ d, (∀ j, j < d → (entryAt t ((idx + j) % t.capacity)).occupied = true) ∧
            ¬(entryAt t ((idx + d) % t.capacity)).occupied = true ∧ d < fuel ∧
            res = (D_TABLE_OK,
              ⟨t.entries.set ((idx + d) % t.capacity) ⟨keyStore k, v, true⟩,
               t.capacity, t.count + 1⟩)) := by
  intro fuel
  induction fuel with
  | zero => intro idx _ hex; omega
  | succ f ih =>
    intro idx hidx hex
    have hcap : 0 < t.capacity := by omega
    by_cases hocc : (entryAt t idx).occupied = true
    · by_cases hm : d_strncmp (entryAt t idx).key k 32 = true
      · exact ⟨(D_TABLE_KEY_EXISTS, t), by simp [insertLoop, hocc, hm], Or.inl rfl⟩
      · obtain ⟨j0, hj0f, hj0⟩ := hex
        have hj0ne : j0 ≠ 0 := by
          intro h
          subst h
          rw [Nat.add_zero, Nat.mod_eq_of_lt hidx] at hj0
          exact hj0 hocc
        have hex2 : ∃ j, j < f ∧
            ¬(entryAt t (((idx + 1) % t.capacity + j) % t.capacity)).occupied = true := by
          refine ⟨j0 - 1, by omega, ?_⟩
          rw [probe_shift]
          have hj : j0 - 1 + 1 = j0 := by omega
          rw [hj]
          exact hj0
        obtain ⟨res, hres, hcases⟩ := ih ((idx + 1) % t.capacity) (Nat.mod_lt _ hcap) hex2
        refine ⟨res, by simp [insertLoop, hocc, hm, hres], ?_⟩
        cases hcases with
        | inl h => exact Or.inl h
        | inr h =>
          obtain ⟨d, hall, hfree, hdf, hres2⟩ := h
          refine Or.inr ⟨d + 1, ?_, ?_, by omega, ?_⟩
          · intro j hj
            cases j with
            | zero => rw [Nat.add_zero, Nat.mod_eq_of_lt hidx]; exact hocc
            | succ j2 =>
              have hget := hall j2 (by omega)
              rw [probe_shift] at hget
              exact hget
          · have := hfree
            rw [probe_shift] at this
            exact this
          · rw [probe_shift] at hres2
            exact hres2
    · refine ⟨(D_TABLE_OK,
        ⟨t.entries.set idx ⟨keyStore k, v, true⟩, t.capacity, t.count + 1⟩),
        by simp [insertLoop, hocc], Or.inr ⟨0, by omega, ?_, by omega, ?_⟩⟩
      · rw [Nat.add_zero, Nat.mod_eq_of_lt hidx]
        exact hocc
      · simp [Nat.mod_eq_of_lt hidx]

/-- If every probe offset up to d is occupied and the entry at offset d
matches the key, the insert probe reports the existing key. -/
theorem insertLoop_finds (t : d_table_t) (k : List Nat) (v : Int) :
    ∀ (d fuel idx : Nat), idx < t.capacity → d < fuel →
      (∀ j, j ≤ d → (entryAt t ((idx + j) % t.capacity)).occupied = true) →
      d_strncmp (entryAt t ((idx + d) % t.capacity)).key k 32 = true →
      insertLoop t k v idx fuel = some (D_TABLE_KEY_EXISTS, t) := by
  intro d
  induction d with
  | zero =>
    intro fuel idx hidx hdf hall hmatch
    obtain ⟨f, rfl⟩ : ∃ f, fuel = f + 1 := ⟨fuel - 1, by omega⟩
    have h0 := hall 0 (Nat.le_refl 0)
    rw [Nat.add_zero, Nat.mod_eq_of_lt hidx] at h0 hmatch
    simp [insertLoop, h0, hmatch]
  | succ d ih =>
    intro fuel idx hidx hdf hall hmatch
    obtain ⟨f, rfl⟩ : ∃ f, fuel = f + 1 := ⟨fuel - 1, by omega⟩
    have hcap : 0 < t.capacity := by omega
    have h0 := hall 0 (Nat.zero_le _)
    rw [Nat.add_zero, Nat.mod_eq_of_lt hidx] at h0
    by_cases hm0 : d_strncmp (entryAt t idx).key k 32 = true
    · simp [insertLoop, h0, hm0]
    · have hrec := ih f ((idx + 1) % t.capacity) (Nat.mod_lt _ hcap) (by omega)
        (fun j hj => by rw [probe_shift]; exact hall (j + 1) (by omega))
        (by rw [probe_shift]; exact hmatch)
      simp [insertLoop, h0, hm0, hrec]

/-- An insert probe that reports an existing key returns the table
unchanged. -/
theorem insertLoop_keyexists_unchanged (t : d_table_t) (k : List Nat) (v : Int) :
    ∀ (fuel idx : Nat) (t2 : d_table_t),
      insertLoop t k v idx fuel = some (D_TABLE_KEY_EXISTS, t2) → t2 = t := by
  intro fuel
  induction fuel with
  | zero => intro idx t2 h; exact absurd h (by simp [insertLoop])
  | succ f ih =>
    intro idx t2 h
    by_cases hocc : (entryAt t idx).occupied = true
    · by_cases hm : d_strncmp (entryAt t idx).key k 32 = true
      · simp [insertLoop, hocc, hm] at h
        exact h.symm
      · simp only [insertLoop, hocc, if_true, hm, if_false] at h
        exact ih _ _ (by simpa [hm] using h)
    · simp [insertLoop, hocc] at h

/-- Reading the slot just written. -/
theorem entryAt_mk_set_self (t : d_table_t) (p : Nat) (e : d_entry_t) (c n : Nat)
    (hp : p < t.entries.length) :
    entryAt ⟨t.entries.set p e, c, n⟩ p = e := by
  unfold entryAt
  exact getD_set_self _ _ _ _ hp

/-- Reading any other slot after a write. -/
theorem entryAt_mk_set_ne (t : d_table_t) (p s : Nat) (e : d_entry_t) (c n : Nat)
    (h : p ≠ s) :
    entryAt ⟨t.entries.set p e, c, n⟩ s = entryAt t s := by
  unfold entryAt
  exact getD_set_ne _ _ _ _ _ h

/-- Writing an occupied entry anywhere preserves every occupied flag. -/
theorem occ_set_mono (t : d_table_t) (p : Nat) (e : d_entry_t) (c n : Nat)
    (hp : p < t.entries.length) (he : e.occupied = true) (s : Nat)
    (hocc : (entryAt t s).occupied = true) :
    (entryAt ⟨t.entries.set p e, c, n⟩ s).occupied = true := by
  by_cases hsp : p = s
  · subst hsp
    rw [entryAt_mk_set_self t p e c n hp]
    exact he
  · rw [entryAt_mk_set_ne t p s e c n hsp]
    exact hocc

/-- Every slot of a freshly initialized table is the zeroed entry. -/
theorem entryAt_replicate (cap s c n : Nat) :
    entryAt ⟨List.replicate cap emptyEntry, c, n⟩ s = emptyEntry := by
  unfold entryAt
  rw [List.getD_eq_getElem?_getD, List.getElem?_replicate]
  split <;> rfl

/-- Every reachable table satisfies the table invariant: exact entry
span, positive capacity, count equal to the occupied-slot count, valid
bounded stored keys, and intact probe chains for all inserted keys. -/
theorem reach_inv : ∀ {t : d_table_t} {ks : List (List Nat)}, Reach t ks → TableInv t ks := by
  intro t ks h
  induction h with
  | init tp bp bs t heq =>
    unfold d_table_init at heq
    by_cases h1 : tp = false ∨ bp = false
    · rw [if_pos h1] at heq
      exact absurd heq (by simp)
    · rw [if_neg h1] at heq
      by_cases h2 : bs / d_entry_size = 0
      · rw [if_pos h2] at heq
        exact absurd heq (by simp)
      · rw [if_neg h2] at heq
        have ht : t = ⟨List.replicate (bs / d_entry_size) emptyEntry, bs / d_entry_size, 0⟩ := by
          injection heq with h3 h4
          exact (Option.some.inj h4).symm
        subst ht
        refine ⟨by simp, Nat.pos_of_ne_zero h2, ?_, ?_, by simp⟩
        · show (0 : Nat) = occCount _
          unfold occCount
          dsimp only
          rw [List.countP_eq_zero.mpr]
          intro e he
          rw [List.eq_of_mem_replicate he]
          simp [emptyEntry]
        · intro s hs hocc
          rw [entryAt_replicate] at hocc
          exact absurd hocc (by simp [emptyEntry])
  | insert t ks k v t2 hreach hvalid heq ih =>
    obtain ⟨hlen, hcap, hcnt, hvs, hchains⟩ := ih
    replace heq : (if t.capacity ≤ t.count then (D_TABLE_FULL, some t)
        else match insertLoop t k v (jenkins_hash k % t.capacity) t.capacity with
          | some r => (r.1, some r.2)
          | none => (D_TABLE_FULL, some t)) = (D_TABLE_OK, some t2) := heq
    by_cases hfull : t.capacity ≤ t.count
    · rw [if_pos hfull] at heq
      exact absurd heq (by simp)
    · rw [if_neg hfull] at heq
      have hidx : jenkins_hash k % t.capacity < t.capacity := Nat.mod_lt _ hcap
      obtain ⟨sfree, hsfree, hfree⟩ := exists_free_slot t hlen hcnt (by omega)
      obtain ⟨j0, hj0cap, hj0pos⟩ :=
        exists_probe_offset t.capacity (jenkins_hash k % t.capacity) sfree hcap hidx hsfree
      obtain ⟨res, hres, hcases⟩ := insertLoop_cases t k v t.capacity (jenkins_hash k % t.capacity)
        hidx ⟨j0, hj0cap, by rw [hj0pos]; exact hfree⟩
      rw [hres] at heq
      cases hcases with
      | inl hke =>
        rw [hke] at heq
        simp at heq
      | inr hok =>
        obtain ⟨d, hall, hfreed, hdcap, hres2⟩ := hok
        rw [hres2] at heq
        have ht2 : t2 = ⟨t.entries.set ((jenkins_hash k % t.capacity + d) % t.capacity)
            ⟨keyStore k, v, true⟩, t.capacity, t.count + 1⟩ := by
          injection heq with h3 h4
          exact (Option.some.inj h4).symm
        subst ht2
        have hpcap : (jenkins_hash k % t.capacity + d) % t.capacity < t.capacity :=
          Nat.mod_lt _ hcap
        have hplen : (jenkins_hash k % t.capacity + d) % t.capacity < t.entries.length := by
          omega
        refine ⟨?_, hcap, ?_, ?_, ?_⟩
        · show (t.entries.set _ _).length = t.capacity
          rw [List.length_set]
          exact hlen
        · show t.count + 1 = occCount _
          unfold occCount
          dsimp only
          rw [occCount_set_unocc t _ _ hplen hfreed rfl]
          omega
        · intro s hs hocc
          by_cases hsp : s = (jenkins_hash k % t.capacity + d) % t.capacity
          · rw [hsp] at hocc ⊢
            rw [entryAt_mk_set_self t _ _ _ _ hplen]
            refine ⟨?_, ?_⟩
            · intro c hc
              exact hvalid c (List.mem_of_mem_take hc)
            · show (keyStore k).length ≤ 31
              unfold keyStore
              simp [List.length_take]
          · rw [entryAt_mk_set_ne t _ s _ _ _ (fun hh => hsp hh.symm)] at hocc ⊢
            exact hvs s (by dsimp only at hs; exact hs) hocc
        · intro k2 hk2
          rcases List.mem_cons.mp hk2 with hk2 | hk2
          · subst hk2
            refine ⟨(jenkins_hash k2 % t.capacity + d) % t.capacity, ?_, ?_, ?_, ?_⟩
            · dsimp only
              exact hpcap
            · rw [entryAt_mk_set_self t _ _ _ _ hplen]
            · rw [entryAt_mk_set_self t _ _ _ _ hplen]
            · intro j hj
              dsimp only at hj
              rw [probe_dist t.capacity _ d hidx (by omega)] at hj
              exact occ_set_mono t _ _ _ _ hplen rfl _ (hall j hj)
          · obtain ⟨s, hs, hocc, hkey, hchain⟩ := hchains k2 hk2
            have hsne : s ≠ (jenkins_hash k % t.capacity + d) % t.capacity := by
              intro hh
              rw [hh] at hocc
              exact hfreed hocc
            refine ⟨s, ?_, ?_, ?_, ?_⟩
            · dsimp only
              exact hs
            · rw [entryAt_mk_set_ne t _ s _ _ _ (fun hh => hsne hh.symm)]
              exact hocc
            · rw [entryAt_mk_set_ne t _ s _ _ _ (fun hh => hsne hh.symm)]
              exact hkey
            · intro j hj
              dsimp only at hj
              exact occ_set_mono t _ _ _ _ hplen rfl _ (hchain j hj)

/-- When no slot of the table matches the key, the get probe loop always
reports not-found without writing, whatever the fuel. -/
theorem getLoop_no_match (t : d_table_t) (k : List Nat)
    (hnm : ∀ s, s < t.capacity →
      ¬((entryAt t s).occupied = true ∧ d_strncmp (entryAt t s).key k 32 = true)) :
    ∀ fuel idx start, idx < t.capacity →
      getLoop t k start fuel idx = (D_TABLE_NOT_FOUND, none) := by
  intro fuel
  induction fuel with
  | zero =>
    intro idx start hidx
    by_cases hocc : (entryAt t idx).occupied = true
    · have hm : ¬d_strncmp (entryAt t idx).key k 32 = true := fun hm => hnm idx hidx ⟨hocc, hm⟩
      simp [getLoop, hocc, hm]
    · simp [getLoop, hocc]
  | succ f ih =>
    intro idx start hidx
    by_cases hocc : (entryAt t idx).occupied = true
    · have hm : ¬d_strncmp (entryAt t idx).key k 32 = true := fun hm => hnm idx hidx ⟨hocc, hm⟩
      have hrec := ih ((idx + 1) % t.capacity) start (Nat.mod_lt _ (by omega))
      simp [getLoop, hocc, hm, hrec]
    · simp [getLoop, hocc]

/-- At the last offset before wrapping, the probe result does not depend
on the fuel: the wrap check fires before any recursion. -/
theorem getLoop_last (t : d_table_t) (k : List Nat) (start : Nat)
    (hs : start < t.capacity) (f1 f2 : Nat) :
    getLoop t k start f1 ((start + (t.capacity - 1)) % t.capacity) =
    getLoop t k start f2 ((start + (t.capacity - 1)) % t.capacity) := by
  have hq : ((start + (t.capacity - 1)) % t.capacity + 1) % t.capacity = start := by
    rw [Nat.mod_add_mod]
    have h2 : start + (t.capacity - 1) + 1 = start + t.capacity := by omega
    rw [h2, Nat.add_mod_right, Nat.mod_eq_of_lt hs]
  cases f1 <;> cases f2 <;> simp [getLoop, hq]

/-- On the probe walk from the start, the result is independent of the
fuel once the fuel covers the remaining offsets before the wrap: the
loop inspects at most capacity slots in total. -/
theorem getLoop_fuel_stable (t : d_table_t) (k : List Nat) (start : Nat)
    (hs : start < t.capacity) :
    ∀ (m f1 f2 j : Nat), j < t.capacity → t.capacity - 1 - j ≤ m →
      t.capacity - 1 - j ≤ f1 → t.capacity - 1 - j ≤ f2 →
      getLoop t k start f1 ((start + j) % t.capacity) =
      getLoop t k start f2 ((start + j) % t.capacity) := by
  intro m
  induction m with
  | zero =>
    intro f1 f2 j hj hm h1 h2
    have hj2 : j = t.capacity - 1 := by omega
    subst hj2
    exact getLoop_last t k start hs f1 f2
  | succ m ih =>
    intro f1 f2 j hj hm h1 h2
    by_cases hlast : j = t.capacity - 1
    · subst hlast
      exact getLoop_last t k start hs f1 f2
    · have hj1 : j + 1 < t.capacity := by omega
      have hne : (start + (j + 1)) % t.capacity ≠ start :=
        wrap_miss t.capacity start (j + 1) hs (by omega) hj1
      have hstep : ((start + j) % t.capacity + 1) % t.capacity =
          (start + (j + 1)) % t.capacity := by
        rw [Nat.mod_add_mod, Nat.add_assoc]
      obtain ⟨f1p, rfl⟩ : ∃ x, f1 = x + 1 := ⟨f1 - 1, by omega⟩
      obtain ⟨f2p, rfl⟩ : ∃ x, f2 = x + 1 := ⟨f2 - 1, by omega⟩
      have hrec := ih f1p f2p (j + 1) hj1 (by omega) (by omega) (by omega)
      by_cases hocc : (entryAt t ((start + j) % t.capacity)).occupied = true
      · by_cases hmt : d_strncmp (entryAt t ((start + j) % t.capacity)).key k 32 = true
        · simp [getLoop, hocc, hmt]
        · simp [getLoop, hocc, hmt, hstep, hne, hrec]
      · simp [getLoop, hocc]

/-- The get probe starting at its home slot gives the same answer with
any fuel of at least the capacity: the walk is bounded by capacity. -/
theorem getLoop_start_fuel (t : d_table_t) (k : List Nat) (start : Nat)
    (hs : start < t.capacity) (fuel : Nat) (hf : t.capacity ≤ fuel) :
    getLoop t k start fuel start = getLoop t k start t.capacity start := by
  have h := getLoop_fuel_stable t k start hs t.capacity fuel t.capacity 0
    (by omega) (by omega) (by omega) (by omega)
  rwa [Nat.add_zero, Nat.mod_eq_of_lt hs] at h

/-- When no occupied slot stores the truncation of a valid key, get
reports not-found and leaves the out pointer unwritten. -/
theorem get_absent_aux (t : d_table_t) (ks : List (List Nat)) (k : List Nat)
    (hr : Reach t ks) (hv : ValidKey k)
    (habs : ∀ s, s < t.capacity →
      ¬((entryAt t s).occupied = true ∧ (entryAt t s).key = keyStore k)) :
    d_table_get (some t) (some k) true = (D_TABLE_NOT_FOUND, none) := by
  obtain ⟨hlen, hcap, _, hvs, _⟩ := reach_inv hr
  have hnm : ∀ s, s < t.capacity →
      ¬((entryAt t s).occupied = true ∧ d_strncmp (entryAt t s).key k 32 = true) := by
    intro s hsc hboth
    obtain ⟨hocc, hmt⟩ := hboth
    obtain ⟨hvkey, hklen⟩ := hvs s hsc hocc
    have heqk : (entryAt t s).key = k :=
      (d_strncmp_eq_iff 32 (entryAt t s).key k hvkey hv (by omega)).mp hmt
    have hk31 : k.length ≤ 31 := by
      rw [← heqk]
      exact hklen
    refine habs s hsc ⟨hocc, ?_⟩
    rw [heqk]
    unfold keyStore
    rw [List.take_of_length_le hk31]
  show getLoop t k (jenkins_hash k % t.capacity) t.capacity (jenkins_hash k % t.capacity) =
    (D_TABLE_NOT_FOUND, none)
  exact getLoop_no_match t k hnm t.capacity _ _ (Nat.mod_lt _ hcap)

/-- The insert probe only ever reports an existing key or success. -/
theorem insertLoop_result (t : d_table_t) (k : List Nat) (v : Int) :
    ∀ (fuel idx : Nat) (res : d_table_res_t × d_table_t),
      insertLoop t k v idx fuel = some res →
      (res.1 = D_TABLE_KEY_EXISTS ∧ res.2 = t) ∨ res.1 = D_TABLE_OK := by
  intro fuel
  induction fuel with
  | zero => intro idx res h; exact absurd h (by simp [insertLoop])
  | succ f ih =>
    intro idx res h
    by_cases hocc : (entryAt t idx).occupied = true
    · by_cases hm : d_strncmp (entryAt t idx).key k 32 = true
      · simp [insertLoop, hocc, hm] at h
        left
        rw [← h]
        exact ⟨rfl, rfl⟩
      · exact ih _ _ (by simpa [insertLoop, hocc, hm] using h)
    · simp [insertLoop, hocc] at h
      right
      rw [← h]

/-- An insert whose status is not OK returns the table unchanged, so a
sequence with failed inserts stays within the reachable tables. -/
theorem insert_fail_unchanged (t : d_table_t) (k : List Nat) (v : Int)
    (r : d_table_res_t) (t2 : Option d_table_t)
    (heq : d_table_insert (some t) (some k) v = (r, t2)) (hr : r ≠ D_TABLE_OK) :
    t2 = some t := by
  replace heq : (if t.capacity ≤ t.count then (D_TABLE_FULL, some t)
      else match insertLoop t k v (jenkins_hash k % t.capacity) t.capacity with
        | some r => (r.1, some r.2)
        | none => (D_TABLE_FULL, some t)) = (r, t2) := heq
  by_cases hfull : t.capacity ≤ t.count
  · rw [if_pos hfull] at heq
    injection heq with h1 h2
    exact h2.symm
  · rw [if_neg hfull] at heq
    cases hloop : insertLoop t k v (jenkins_hash k % t.capacity) t.capacity with
    | none =>
      rw [hloop] at heq
      injection heq with h1 h2
      exact h2.symm
    | some res =>
      rw [hloop] at heq
      injection heq with h1 h2
      rcases insertLoop_result t k v t.capacity (jenkins_hash k % t.capacity) res hloop with
        ⟨hke, hunch⟩ | hok
      · rw [← h2, hunch]
      · exact absurd (h1 ▸ hok) hr

/-- C9: looking up an absent key in a reachable table reports not-found
with the out pointer left unwritten (the table itself is taken through a
const pointer and never modified), and the probe visits at most capacity
slots: any fuel of at least the capacity gives the identical result,
even on a completely full table. -/
theorem d_table_get_absent_spec :
    ∀ (t : d_table_t) (ks : List (List Nat)) (k : List Nat), Reach t ks → ValidKey k →
      (∀ s, s < t.capacity →
        ¬((entryAt t s).occupied = true ∧ (entryAt t s).key = keyStore k)) →
      d_table_get (some t) (some k) true = (D_TABLE_NOT_FOUND, none) ∧
      ∀ fuel, t.capacity ≤ fuel →
        getLoop t k (jenkins_hash k % t.capacity) fuel (jenkins_hash k % t.capacity) =
        getLoop t k (jenkins_hash k % t.capacity) t.capacity (jenkins_hash k % t.capacity) := by
  intro t ks k hr hv habs
  obtain ⟨hlen, hcap, _, _, _⟩ := reach_inv hr
  refine ⟨get_absent_aux t ks k hr hv habs, ?_⟩
  intro fuel hf
  exact getLoop_start_fuel t k _ (Nat.mod_lt _ hcap) fuel hf

/-- Witness for C9: lookup of an absent key in the freshly initialized
two-slot table. -/
theorem d_table_get_absent_spec_witness :
    d_table_get (some tbl0) (some [107, 101, 121]) true = (D_TABLE_NOT_FOUND, none) :=
  (d_table_get_absent_spec tbl0 [] [107, 101, 121]
    (Reach.init true true 80 tbl0 (by decide)) (by decide) (by decide)).1

/-- C10: every reachable table keeps count equal to the number of
occupied slots, count at most capacity, and positive capacity; and when
the full check passes, the insert probe with its capacity fuel always
reaches a decision (an unoccupied slot exists on the probe path), so the
source loop terminates. -/
theorem d_table_invariants :
    ∀ (t : d_table_t) (ks : List (List Nat)), Reach t ks →
      t.count = occCount t ∧ t.count ≤ t.capacity ∧ 0 < t.capacity ∧
      (t.count < t.capacity → ∀ (k : List Nat) (v : Int),
        insertLoop t k v (jenkins_hash k % t.capacity) t.capacity ≠ none) := by
  intro t ks hr
  obtain ⟨hlen, hcap, hcnt, _, _⟩ := reach_inv hr
  refine ⟨hcnt, ?_, hcap, ?_⟩
  · have hle : occCount t ≤ t.entries.length := List.countP_le_length _
    omega
  · intro hlt k v
    have hidx : jenkins_hash k % t.capacity < t.capacity := Nat.mod_lt _ hcap
    obtain ⟨sfree, hsf, hf⟩ := exists_free_slot t hlen hcnt hlt
    obtain ⟨j0, hj0, hj0p⟩ := exists_probe_offset t.capacity _ sfree hcap hidx hsf
    obtain ⟨res, hres, _⟩ := insertLoop_cases t k v t.capacity _ hidx
      ⟨j0, hj0, by rw [hj0p]; exact hf⟩
    rw [hres]
    simp

/-- Witness for C10: the invariants of the freshly initialized two-slot
table, and termination of its first insert probe. -/
theorem d_table_invariants_witness :
    tbl0.count = occCount tbl0 ∧ 0 < tbl0.capacity ∧
    insertLoop tbl0 [107, 101, 121] 5 (jenkins_hash [107, 101, 121] % tbl0.capacity)
      tbl0.capacity ≠ none :=
  ⟨(d_table_invariants tbl0 [] (Reach.init true true 80 tbl0 (by decide))).1,
   (d_table_invariants tbl0 [] (Reach.init true true 80 tbl0 (by decide))).2.2.1,
   (d_table_invariants tbl0 [] (Reach.init true true 80 tbl0 (by decide))).2.2.2
     (by decide) [107, 101, 121] 5⟩

/-- C7 amended: status codes of the table operations.  Null arguments to
insert, get and init report the invalid-parameter status; insert reports
capacity exhaustion once count reaches capacity; re-inserting a key of
at most 31 bytes that was previously inserted successfully reports the
duplicate-key status; otherwise insert reports success and stores the
truncated key with its value (or the duplicate status if its probe path
matches first); and looking up a key whose truncation is stored nowhere
reports not-found.  Keys longer than 31 bytes are truncated on store but
are never detected as duplicates, because the comparison runs the full
key against the stored truncation. -/
theorem d_table_status_spec :
    (∀ (key : Option (List Nat)) (v : Int),
      d_table_insert none key v = (D_TABLE_INVALID_PARAM, none)) ∧
    (∀ (t : d_table_t) (v : Int),
      d_table_insert (some t) none v = (D_TABLE_INVALID_PARAM, some t)) ∧
    (∀ (t : d_table_t) (k : List Nat) (v : Int), t.capacity ≤ t.count →
      d_table_insert (some t) (some k) v = (D_TABLE_FULL, some t)) ∧
    (∀ (t : d_table_t) (ks : List (List Nat)) (k : List Nat) (v : Int),
      Reach t ks → k ∈ ks → k.length ≤ 31 → t.count < t.capacity →
      d_table_insert (some t) (some k) v = (D_TABLE_KEY_EXISTS, some t)) ∧
    (∀ (t : d_table_t) (ks : List (List Nat)) (k : List Nat) (v : Int),
      Reach t ks → ValidKey k → t.count < t.capacity →
      ∃ st t2, d_table_insert (some t) (some k) v = (st, some t2) ∧
        (st = D_TABLE_KEY_EXISTS ∧ t2 = t ∨
         st = D_TABLE_OK ∧ ∃ p, p < t2.capacity ∧
           entryAt t2 p = ⟨keyStore k, v, true⟩ ∧ t2.count = t.count + 1)) ∧
    (∀ (t : d_table_t) (ks : List (List Nat)) (k : List Nat),
      Reach t ks → ValidKey k →
      (∀ s, s < t.capacity →
        ¬((entryAt t s).occupied = true ∧ (entryAt t s).key = keyStore k)) →
      d_table_get (some t) (some k) true = (D_TABLE_NOT_FOUND, none)) ∧
    (∀ (key : Option (List Nat)) (o : Bool),
      d_table_get none key o = (D_TABLE_INVALID_PARAM, none)) ∧
    (∀ (t : d_table_t) (o : Bool),
      d_table_get (some t) none o = (D_TABLE_INVALID_PARAM, none)) ∧
    (∀ (t : d_table_t) (k : List Nat),
      d_table_get (some t) (some k) false = (D_TABLE_INVALID_PARAM, none)) ∧
    (∀ (bp : Bool) (bs : Nat), d_table_init false bp bs = (D_TABLE_INVALID_PARAM, none)) ∧
    (∀ (tp : Bool) (bs : Nat), d_table_init tp false bs = (D_TABLE_INVALID_PARAM, none)) := by
  refine ⟨fun key v => rfl, fun t v => rfl, ?_, ?_, ?_,
    fun t ks k hr hv habs => get_absent_aux t ks k hr hv habs,
    fun key o => rfl, fun t o => rfl, fun t k => rfl, ?_, ?_⟩
  · intro t k v h
    show (if t.capacity ≤ t.count then (D_TABLE_FULL, some t)
        else match insertLoop t k v (jenkins_hash k % t.capacity) t.capacity with
          | some r => (r.1, some r.2)
          | none => (D_TABLE_FULL, some t)) = (D_TABLE_FULL, some t)
    rw [if_pos h]
  · intro t ks k v hr hmem hk31 hlt
    obtain ⟨hlen, hcap, hcnt, hvs, hchains⟩ := reach_inv hr
    obtain ⟨s, hs, hocc, hkey, hchain⟩ := hchains k hmem
    have hidx : jenkins_hash k % t.capacity < t.capacity := Nat.mod_lt _ hcap
    have hdcap : (s + t.capacity - jenkins_hash k % t.capacity) % t.capacity < t.capacity :=
      Nat.mod_lt _ hcap
    have hpos : (jenkins_hash k % t.capacity +
        (s + t.capacity - jenkins_hash k % t.capacity) % t.capacity) % t.capacity = s := by
      rw [Nat.add_mod_mod]
      have h2 : jenkins_hash k % t.capacity +
          (s + t.capacity - jenkins_hash k % t.capacity) = s + t.capacity := by omega
      rw [h2, Nat.add_mod_right, Nat.mod_eq_of_lt hs]
    have hmatch : d_strncmp (entryAt t ((jenkins_hash k % t.capacity +
        (s + t.capacity - jenkins_hash k % t.capacity) % t.capacity) %
          t.capacity)).key k 32 = true := by
      rw [hpos, hkey]
      unfold keyStore
      rw [List.take_of_length_le hk31]
      exact d_strncmp_self 32 k
    have hall : ∀ j, j ≤ (s + t.capacity - jenkins_hash k % t.capacity) % t.capacity →
        (entryAt t ((jenkins_hash k % t.capacity + j) % t.capacity)).occupied = true := by
      intro j hj
      rcases Nat.lt_or_ge j ((s + t.capacity - jenkins_hash k % t.capacity) % t.capacity)
        with hd | hd
      · exact hchain j hd
      · have hje : j = (s + t.capacity - jenkins_hash k % t.capacity) % t.capacity := by omega
        rw [hje, hpos]
        exact hocc
    have hloop := insertLoop_finds t k v
      ((s + t.capacity - jenkins_hash k % t.capacity) % t.capacity)
      t.capacity (jenkins_hash k % t.capacity) hidx hdcap hall hmatch
    show (if t.capacity ≤ t.count then (D_TABLE_FULL, some t)
        else match insertLoop t k v (jenkins_hash k % t.capacity) t.capacity with
          | some r => (r.1, some r.2)
          | none => (D_TABLE_FULL, some t)) = (D_TABLE_KEY_EXISTS, some t)
    rw [if_neg (by omega), hloop]
  · intro t ks k v hr hv hlt
    obtain ⟨hlen, hcap, hcnt, _, _⟩ := reach_inv hr
    have hidx : jenkins_hash k % t.capacity < t.capacity := Nat.mod_lt _ hcap
    obtain ⟨sfree, hsf, hf⟩ := exists_free_slot t hlen hcnt hlt
    obtain ⟨j0, hj0, hj0p⟩ := exists_probe_offset t.capacity _ sfree hcap hidx hsf
    obtain ⟨res, hres, hcases⟩ := insertLoop_cases t k v t.capacity _ hidx
      ⟨j0, hj0, by rw [hj0p]; exact hf⟩
    have hpc : (jenkins_hash k % t.capacity + 0) % t.capacity < t.capacity := Nat.mod_lt _ hcap
    rcases hcases with hke | ⟨d, hall, hfreed, hdc, hok⟩
    · refine ⟨D_TABLE_KEY_EXISTS, t, ?_, Or.inl ⟨rfl, rfl⟩⟩
      show (if t.capacity ≤ t.count then (D_TABLE_FULL, some t)
          else match insertLoop t k v (jenkins_hash k % t.capacity) t.capacity with
            | some r => (r.1, some r.2)
            | none => (D_TABLE_FULL, some t)) = (D_TABLE_KEY_EXISTS, some t)
      rw [if_neg (by omega), hres, hke]
    · have hpcap : (jenkins_hash k % t.capacity + d) % t.capacity < t.capacity :=
        Nat.mod_lt _ hcap
      have hplen : (jenkins_hash k % t.capacity + d) % t.capacity < t.entries.length := by
        omega
      refine ⟨D_TABLE_OK,
        ⟨t.entries.set ((jenkins_hash k % t.capacity + d) % t.capacity)
          ⟨keyStore k, v, true⟩, t.capacity, t.count + 1⟩, ?_,
        Or.inr ⟨rfl, (jenkins_hash k % t.capacity + d) % t.capacity, hpcap,
          entryAt_mk_set_self t _ _ _ _ hplen, rfl⟩⟩
      show (if t.capacity ≤ t.count then (D_TABLE_FULL, some t)
          else match insertLoop t k v (jenkins_hash k % t.capacity) t.capacity with
            | some r => (r.1, some r.2)
            | none => (D_TABLE_FULL, some t)) = _
      rw [if_neg (by omega), hres, hok]
  · intro bp bs
    unfold d_table_init
    rw [if_pos (Or.inl rfl)]
  · intro tp bs
    unfold d_table_init
    rw [if_pos (Or.inr rfl)]

/-- Counterexample to C7 as stated: a 32-byte key is inserted into a
fresh two-slot table, storing its 31-byte truncation; inserting the very
same key again succeeds instead of reporting the duplicate-key status,
even though the truncation is already stored and the table is not full. -/
theorem d_table_insert_longkey_cex :
    d_table_insert (some tbl0) (some key32) 1 = (D_TABLE_OK, some tbl1) ∧
    (entryAt tbl1 0).occupied = true ∧ (entryAt tbl1 0).key = keyStore key32 ∧
    tbl1.count < tbl1.capacity ∧
    (d_table_insert (some tbl1) (some key32) 2).1 = D_TABLE_OK ∧
    D_TABLE_OK ≠ D_TABLE_KEY_EXISTS := by decide

/-- Witness for amended C7: a null table pointer, a full one-slot table,
and a duplicate short-key insert into a reachable table, each through
the main theorem. -/
theorem d_table_status_spec_witness :
    d_table_insert none (some [107]) 0 = (D_TABLE_INVALID_PARAM, none) ∧
    d_table_insert (some tblFull) (some [107]) 5 = (D_TABLE_FULL, some tblFull) ∧
    d_table_insert (some tbl2) (some [107, 101, 121]) 9 = (D_TABLE_KEY_EXISTS, some tbl2) :=
  ⟨d_table_status_spec.1 (some [107]) 0,
   d_table_status_spec.2.2.1 tblFull [107] 5 (by decide),
   d_table_status_spec.2.2.2.1 tbl2 [[107, 101, 121]] [107, 101, 121] 9
     (Reach.insert tbl0 [] [107, 101, 121] 7 tbl2
       (Reach.init true true 80 tbl0 (by decide)) (by decide) (by decide))
     (List.mem_singleton.mpr rfl) (by decide) (by decide)⟩
